/-
Verification of the retrieval core of the crawl4aichat repository:
the chunking algorithm (WebCrawler.chunk_content in crawler.py), the
hybrid search pipeline (WebCrawler.search in crawler.py together with
SupabaseClient.search_by_text, search_by_embedding and hybrid_search in
db_client.py), the page/chunk write path (SupabaseClient.add_pages) and
the embedding-enrichment phase of WebCrawler.enhance_pages.

The Python code is shallowly embedded: dictionaries become structures,
loops become folds, and every Python exception site is modelled with
Except so that try/except fallbacks are explicit.  The tiktoken
tokenizer and the Postgres text-search/vector primitives are external
collaborators and enter the model as parameters (a Tokenizer structure,
and ftMatch/ftRank/cosSim functions in the database environment).
-/
import Mathlib

set_option autoImplicit false

/-! ## Tokenizer and page records -/

/-- External tokenizer interface (tiktoken in EmbeddingGenerator):
encode turns text into a token list, decode inverts it. -/
structure Tokenizer where
  encode : String → List Nat
  decode : List Nat → String

/-- EmbeddingGenerator.count_tokens: length of the encoded token list. -/
def Tokenizer.count (tk : Tokenizer) (s : String) : Nat :=
  (tk.encode s).length

/-- A concrete executable tokenizer used for evaluating the model on
small inputs: every character is one token. -/
def charTok : Tokenizer where
  encode s := s.data.map Char.toNat
  decode l := String.mk (l.map Char.ofNat)

/-- The page dictionaries flowing through WebCrawler.chunk_content and
enhance_pages, restricted to the keys the algorithms read or write. -/
structure Page where
  url : String
  title : String
  content : String
  summary : String
  isChunk : Bool
  chunkIndex : Option Nat
  tokenCount : Option Nat
  embedding : Option (List Rat)
deriving Repr, DecidableEq

/-! ## Section computation (the re.split header pass and the paragraph
fallback at the top of chunk_content) -/

/-- Python regex class \s restricted to ASCII: space, tab, newline,
carriage return, vertical tab, form feed. -/
def pyWs (c : Char) : Bool :=
  c = ' ' || c = '\t' || c = '\n' || c = '\r' || c = '\x0b' || c = '\x0c'

/-- Index of the last occurrence of a character satisfying p, among the
first n entries of the list. -/
def lastIdxWithin (p : Char → Bool) (l : List Char) (n : Nat) : Option Nat :=
  ((List.range n).filter (fun i => (l.get? i).any p)).getLast?

/-- Length of the leftmost match of the header regex (#... prefix rule
r'#\x7b1,6\x7d\s+.+?\n') when it matches at the head of cs: a run of one to
six hash marks, at least one whitespace character, then a shortest
non-empty newline-free stretch closed by a newline.  The whitespace run
is taken greedily; when no newline follows it, the match backtracks into
the run, which succeeds only when the run itself contains a newline
preceded by a usable non-newline character. -/
def matchHeaderAt (cs : List Char) : Option Nat :=
  let hashes := (cs.takeWhile (· = '#')).length
  if hashes = 0 || 6 < hashes then none
  else
    let rest := cs.drop hashes
    let w := (rest.takeWhile pyWs).length
    if w = 0 then none
    else
      match (rest.drop w).findIdx? (· = '\n') with
      | some t => some (hashes + w + t + 1)
      | none =>
        let wsRun := rest.take w
        match lastIdxWithin (· = '\n') wsRun w with
        | none => none
        | some q =>
          match ((List.range q).filter
              (fun i => decide (1 ≤ i) && (wsRun.get? i).any (· ≠ '\n'))).getLast? with
          | none => none
          | some wStar => some (hashes + wStar + 2)

/-- Earliest position (with match length) of a header match in cs. -/
def findFirstHeader (cs : List Char) : Option (Nat × Nat) :=
  (List.range cs.length).findSome? fun i =>
    (matchHeaderAt (cs.drop i)).map fun len => (i, len)

/-- The alternating content/delimiter pieces produced by
re.split(header_pattern, content); the fuel argument bounds the number
of matches, each of which consumes at least one character. -/
def reSplitAux : Nat → List Char → List (List Char)
  | 0, cs => [cs]
  | fuel + 1, cs =>
    match findFirstHeader cs with
    | none => [cs]
    | some (i, len) =>
      cs.take i :: (cs.drop i).take len :: reSplitAux fuel ((cs.drop i).drop len)

/-- re.split of the markdown header pattern over the content string. -/
def reSplitHeaders (s : String) : List String :=
  (reSplitAux (s.data.length + 1) s.data).map String.mk

/-- The grouping loop of chunk_content: walk the re.split pieces with
their enumerate index; on an even index with a non-empty buffer, close
the buffer as a section and restart it from the piece, otherwise append
the piece to the buffer; a non-empty final buffer becomes a section. -/
def groupHeaderSecs : Nat → String → List String → List String
  | _, cur, [] => if cur = "" then [] else [cur]
  | i, cur, piece :: rest =>
    if i % 2 = 0 && cur ≠ "" then
      cur :: groupHeaderSecs (i + 1) piece rest
    else
      groupHeaderSecs (i + 1) (cur ++ piece) rest

/-- Python str.split(sep) over character lists: cut at every
non-overlapping leftmost occurrence of the separator. -/
def splitOnAuxL (sep : List Char) : Nat → List Char → List Char → List (List Char)
  | 0, acc, cs => [acc.reverse ++ cs]
  | fuel + 1, acc, cs =>
    if sep.isPrefixOf cs then
      acc.reverse :: splitOnAuxL sep fuel [] (cs.drop sep.length)
    else
      match cs with
      | [] => [acc.reverse]
      | c :: rest => splitOnAuxL sep fuel (c :: acc) rest

/-- Python str.split(sep) for a non-empty separator. -/
def splitOnL (cs sep : List Char) : List (List Char) :=
  splitOnAuxL sep (cs.length + 1) [] cs

/-- Python str.strip(): remove leading and trailing whitespace. -/
def pyStrip (cs : List Char) : List Char :=
  ((cs.dropWhile pyWs).reverse.dropWhile pyWs).reverse

/-- Sections used by chunk_content: the header grouping when it yields
more than one section, otherwise the blank-line paragraph split keeping
only pieces whose strip() is non-empty. -/
def computeSections (content : String) : List String :=
  let secs := groupHeaderSecs 0 "" (reSplitHeaders content)
  if secs.length ≤ 1 then
    ((splitOnL content.data ['\n', '\n']).map String.mk).filter
      (fun p => ¬(pyStrip p.data = []))
  else secs

/-! ## The chunking fold of chunk_content -/

/-- Mutable loop state of chunk_content: accumulated chunk pages, the
next chunk_index, and the current buffer with its token count. -/
structure ChunkState where
  chunks : List Page
  idx : Nat
  cur : String
  curTok : Nat
deriving Repr

/-- Append one chunk page: content slice, sequential chunk_index,
token count, and the synthesized fragment URL parent_url#chunk-i. -/
def pushChunk (pg : Page) (st : ChunkState) (content : String) (tcount : Nat) : ChunkState :=
  { st with
    chunks := st.chunks ++
      [{ pg with
          content := content
          chunkIndex := some st.idx
          isChunk := true
          tokenCount := some tcount
          url := pg.url ++ "#chunk-" ++ toString st.idx }]
    idx := st.idx + 1 }

/-- Close the current buffer as a chunk and reset it. -/
def flushCur (pg : Page) (st : ChunkState) : ChunkState :=
  { pushChunk pg st st.cur st.curTok with cur := "", curTok := 0 }

/-- The last k characters of a string (Python s[-k:]). -/
def lastKChars (s : String) (k : Nat) : List Char :=
  s.data.drop (s.data.length - k)

/-- Python str.rfind for a pattern inside a character list: start index
of the rightmost occurrence. -/
def rfindSub (hay pat : List Char) : Option Nat :=
  ((List.range (hay.length + 1)).filter (fun i => pat.isPrefixOf (hay.drop i))).getLast?

/-- The overlap text carried into the next chunk when a chunk is closed:
look at the last 1000 characters, take the first successful break point
among paragraph break, sentence end, clause comma and word break, and
keep the text after it; empty when no break point is found. -/
def overlapCarry (c : String) : String :=
  let ov := lastKChars c 1000
  let breaks := [rfindSub ov ['\n', '\n'], rfindSub ov ['.', ' '],
                 rfindSub ov [',', ' '], rfindSub ov [' ']]
  match breaks.findSome? id with
  | some b => String.mk (ov.drop (b + 1))
  | none => ""

/-- Close the current buffer as a chunk and start the next buffer from
the overlap carry when the closed chunk exceeds overlap_tokens. -/
def closeAndCarry (tk : Tokenizer) (pg : Page) (overlapT : Nat) (st : ChunkState) : ChunkState :=
  let closedChunk := st.cur
  let closedTok := st.curTok
  let st1 := flushCur pg st
  if overlapT < closedTok then
    let carry := overlapCarry closedChunk
    if carry = "" then st1
    else { st1 with cur := carry, curTok := tk.count carry }
  else st1

/-- Add a section to the current buffer, joining with a blank line when
the buffer is non-empty. -/
def appendSection (cur sect : String) : String :=
  if cur = "" then sect else cur ++ "\n\n" ++ sect

/-- Windows of the token-level hard split: start indices 0, step, 2*step,
...; each window takes max_tokens tokens; the loop breaks after the
window that reaches the end of the token list. -/
def hardWindows (tokens : List Nat) (maxT step : Nat) : Nat → Nat → List (List Nat)
  | _, 0 => []
  | start, fuel + 1 =>
    if start < tokens.length then
      let w := (tokens.drop start).take maxT
      if tokens.length ≤ start + maxT then [w]
      else w :: hardWindows tokens maxT step (start + step) fuel
    else []

/-- Token-level hard split of an oversized section: windows of
max_tokens advancing by max_tokens - overlap_tokens.  range() raises
ValueError on a zero step (max = overlap) and yields an empty range on a
negative step (max < overlap). -/
def hardSplit (tokens : List Nat) (maxT overlapT : Nat) : Except Unit (List (List Nat)) :=
  if maxT = overlapT then .error ()
  else if maxT < overlapT then .ok []
  else .ok (hardWindows tokens maxT (maxT - overlapT) 0 (tokens.length + 1))

/-- Emit one chunk page per hard-split window, decoding the window. -/
def emitWindows (tk : Tokenizer) (pg : Page) (ws : List (List Nat)) (st : ChunkState) : ChunkState :=
  ws.foldl (fun s w => pushChunk pg s (tk.decode w) w.length) st

/-- One iteration of the section loop of chunk_content. -/
def processSection (tk : Tokenizer) (pg : Page) (maxT overlapT : Nat)
    (st : ChunkState) (sect : String) : Except Unit ChunkState :=
  let sTok := tk.count sect
  if maxT < sTok then
    let st1 := if 0 < st.curTok then flushCur pg st else st
    match hardSplit (tk.encode sect) maxT overlapT with
    | .error e => .error e
    | .ok ws => .ok (emitWindows tk pg ws st1)
  else
    let st1 :=
      if maxT < st.curTok + sTok ∧ 0 < st.curTok then closeAndCarry tk pg overlapT st
      else st
    let newCur := appendSection st1.cur sect
    .ok { st1 with cur := newCur, curTok := tk.count newCur }

/-- Fold a fallible step over a list, stopping at the first error
(the Python loop body raising inside the try block). -/
def exceptFoldl {σ α : Type} (f : σ → α → Except Unit σ) : σ → List α → Except Unit σ
  | s, [] => .ok s
  | s, a :: l =>
    match f s a with
    | .error e => .error e
    | .ok s1 => exceptFoldl f s1 l

/-- After the section loop, a non-empty buffer becomes the final chunk. -/
def finalizeChunks (pg : Page) (st : ChunkState) : List Page :=
  if st.cur = "" then st.chunks else (pushChunk pg st st.cur st.curTok).chunks

/-- The body of the try block of chunk_content. -/
def chunkContentCore (tk : Tokenizer) (pg : Page) (maxT overlapT : Nat) :
    Except Unit (List Page) :=
  match exceptFoldl (processSection tk pg maxT overlapT) ⟨[], 0, "", 0⟩
      (computeSections pg.content) with
  | .error e => .error e
  | .ok st =>
    let chunks := finalizeChunks pg st
    if chunks = [] then .ok [{ pg with isChunk := false }]
    else .ok ({ pg with isChunk := false, chunkIndex := none } :: chunks)

/-- WebCrawler.chunk_content: empty content returns the page unchanged
and unmarked; any exception during chunking falls back to the original
page marked is_chunk=false; otherwise the try-block result. -/
def chunkContent (tk : Tokenizer) (pg : Page) (maxT overlapT : Nat) : List Page :=
  if pg.content = "" then [{ pg with isChunk := false }]
  else
    match chunkContentCore tk pg maxT overlapT with
    | .ok l => l
    | .error _ => [{ pg with isChunk := false }]

/-! ## Chunker invariants and claim theorems -/

/-- Loop invariant of the section fold: the running chunk_index equals
the number of chunks emitted so far, the emitted chunk_index values are
0, 1, ... in order, and every emitted page is marked as a chunk. -/
def ChunkInv (st : ChunkState) : Prop :=
  st.idx = st.chunks.length ∧
  st.chunks.map Page.chunkIndex = (List.range st.idx).map some ∧
  ∀ p ∈ st.chunks, p.isChunk = true

theorem pushChunk_inv (pg : Page) (st : ChunkState) (content : String) (tcount : Nat)
    (h : ChunkInv st) : ChunkInv (pushChunk pg st content tcount) := by
  obtain ⟨h1, h2, h3⟩ := h
  refine ⟨by simp [pushChunk, h1], ?_, ?_⟩
  · simp only [pushChunk, List.map_append, h2, h1, List.range_succ, List.map_cons,
      List.map_nil]
  · intro p hp
    simp only [pushChunk, List.mem_append, List.mem_singleton] at hp
    rcases hp with hp | hp
    · exact h3 p hp
    · simp [hp]

theorem flushCur_inv (pg : Page) (st : ChunkState) (h : ChunkInv st) :
    ChunkInv (flushCur pg st) := by
  have := pushChunk_inv pg st st.cur st.curTok h
  exact this

/-- ChunkInv only reads the chunks and idx fields. -/
theorem chunkInv_congr {a b : ChunkState} (hc : b.chunks = a.chunks) (hi : b.idx = a.idx)
    (h : ChunkInv a) : ChunkInv b := by
  unfold ChunkInv at *
  rw [hc, hi]
  exact h

theorem closeAndCarry_inv (tk : Tokenizer) (pg : Page) (overlapT : Nat) (st : ChunkState)
    (h : ChunkInv st) : ChunkInv (closeAndCarry tk pg overlapT st) := by
  have hf := flushCur_inv pg st h
  dsimp only [closeAndCarry]
  split
  · split
    · exact hf
    · refine chunkInv_congr ?_ ?_ hf
      · rfl
      · rfl
  · exact hf

theorem emitWindows_inv (tk : Tokenizer) (pg : Page) :
    ∀ (ws : List (List Nat)) (st : ChunkState), ChunkInv st →
      ChunkInv (emitWindows tk pg ws st) := by
  intro ws
  induction ws with
  | nil => intro st h; exact h
  | cons w ws ih =>
    intro st h
    simp only [emitWindows, List.foldl_cons] at *
    exact ih _ (pushChunk_inv pg st (tk.decode w) w.length h)

theorem processSection_inv (tk : Tokenizer) (pg : Page) (maxT overlapT : Nat)
    (st : ChunkState) (sect : String) (st' : ChunkState)
    (h : ChunkInv st) (hp : processSection tk pg maxT overlapT st sect = .ok st') :
    ChunkInv st' := by
  dsimp only [processSection] at hp
  by_cases hbig : maxT < tk.count sect
  · rw [if_pos hbig] at hp
    cases hhs : hardSplit (tk.encode sect) maxT overlapT with
    | error e => rw [hhs] at hp; exact absurd hp (by simp)
    | ok ws =>
      rw [hhs] at hp
      simp only [Except.ok.injEq] at hp
      subst hp
      refine emitWindows_inv tk pg ws _ ?_
      split
      · exact flushCur_inv pg st h
      · exact h
  · rw [if_neg hbig] at hp
    simp only [Except.ok.injEq] at hp
    subst hp
    have h1 : ChunkInv (if maxT < st.curTok + tk.count sect ∧ 0 < st.curTok
        then closeAndCarry tk pg overlapT st else st) := by
      split
      · exact closeAndCarry_inv tk pg overlapT st h
      · exact h
    refine chunkInv_congr ?_ ?_ h1
    · rfl
    · rfl

theorem exceptFoldl_inv {σ α : Type} (f : σ → α → Except Unit σ) (P : σ → Prop)
    (hf : ∀ s a s', P s → f s a = .ok s' → P s') :
    ∀ (l : List α) (s s' : σ), P s → exceptFoldl f s l = .ok s' → P s' := by
  intro l
  induction l with
  | nil =>
    intro s s' hs h
    simp only [exceptFoldl, Except.ok.injEq] at h
    exact h ▸ hs
  | cons a l ih =>
    intro s s' hs h
    simp only [exceptFoldl] at h
    cases hfa : f s a with
    | error e => rw [hfa] at h; exact absurd h (by simp)
    | ok s1 =>
      rw [hfa] at h
      exact ih s1 s' (hf s a s1 hs hfa) h

theorem finalize_spec (pg : Page) (st : ChunkState) (h : ChunkInv st) :
    (finalizeChunks pg st).map Page.chunkIndex =
      (List.range (finalizeChunks pg st).length).map some ∧
    ∀ p ∈ finalizeChunks pg st, p.isChunk = true := by
  unfold finalizeChunks
  split
  · obtain ⟨h1, h2, h3⟩ := h
    exact ⟨by rw [h2, h1], h3⟩
  · obtain ⟨h1, h2, h3⟩ := pushChunk_inv pg st st.cur st.curTok h
    exact ⟨by rw [h2, h1], h3⟩

/-- Claim C4: whenever chunk_content produces chunk records, their
chunk_index values are exactly 0, 1, ..., N-1 in left-to-right
document order, with no gaps or duplicates. -/
theorem chunkContent_index_contiguous (tk : Tokenizer) (pg : Page) (maxT overlapT : Nat) :
    ((chunkContent tk pg maxT overlapT).filter (fun p => p.isChunk)).map Page.chunkIndex =
      (List.range
        ((chunkContent tk pg maxT overlapT).filter (fun p => p.isChunk)).length).map some := by
  unfold chunkContent
  split
  · simp [List.filter]
  · cases hcore : chunkContentCore tk pg maxT overlapT with
    | error e => simp [List.filter]
    | ok l =>
      unfold chunkContentCore at hcore
      cases hfold : exceptFoldl (processSection tk pg maxT overlapT) ⟨[], 0, "", 0⟩
          (computeSections pg.content) with
      | error e => rw [hfold] at hcore; exact absurd hcore (by simp)
      | ok st =>
        have hinv : ChunkInv st := by
          refine exceptFoldl_inv _ ChunkInv ?_ _ _ _ ⟨rfl, by simp, by simp⟩ hfold
          intro s a s' hs hstep
          exact processSection_inv tk pg maxT overlapT s a s' hs hstep
        obtain ⟨hmap, hall⟩ := finalize_spec pg st hinv
        rw [hfold] at hcore
        simp only at hcore
        split at hcore
        · simp only [Except.ok.injEq] at hcore
          subst hcore
          simp [List.filter]
        · simp only [Except.ok.injEq] at hcore
          subst hcore
          have hparent : ({ pg with isChunk := false, chunkIndex := none } : Page).isChunk = false :=
            rfl
          have hfilter : (({ pg with isChunk := false, chunkIndex := none } : Page) ::
              finalizeChunks pg st).filter (fun p => p.isChunk) = finalizeChunks pg st := by
            rw [List.filter_cons_of_neg (by simp [hparent])]
            exact List.filter_eq_self.mpr (fun a ha => by simp [hall a ha])
          rw [hfilter, hmap]

/-- Claim C1 (evaluation at the failing input): a non-empty page of 5
tokens with max_tokens 4000 does not come back as a single unchanged
record; chunk_content returns the unchanged parent plus one chunk
record marked is_chunk=true, because the final-buffer flush emits a
chunk for every non-empty content and the small-content return branch
is unreachable. -/
theorem chunkContent_small_page_two_records :
    (chunkContent charTok ⟨"https://e.com/a", "t", "hello", "", false, none, none, none⟩
        4000 200).map (fun p => (p.isChunk, p.content)) =
      [(false, "hello"), (true, "hello")] := by decide

/-- Claim C3 counterexample: content "aa\n\nbb" with max_tokens 4 and
overlap 0 under the one-token-per-character tokenizer produces a single
chunk of 6 tokens, exceeding max_tokens, because the greedy guard adds
token counts of the bare sections and never re-checks after joining
them with the two-character blank-line separator. -/
theorem chunkContent_token_bound_cx :
    ((chunkContent charTok ⟨"https://e.com/a", "t", "aa\n\nbb", "", false, none, none, none⟩
        4 0).filter (fun p => p.isChunk)).map Page.tokenCount = [some 6] ∧ ¬(6 ≤ 4) := by
  decide

theorem hardWindows_le (tokens : List Nat) (maxT step : Nat) :
    ∀ (fuel start : Nat) (w : List Nat),
      w ∈ hardWindows tokens maxT step start fuel → w.length ≤ maxT := by
  intro fuel
  induction fuel with
  | zero => intro start w hw; simp [hardWindows] at hw
  | succ n ih =>
    intro start w hw
    simp only [hardWindows] at hw
    split at hw
    · split at hw
      · rw [List.mem_singleton] at hw
        subst hw
        simp [Nat.min_le_left]
      · rcases List.mem_cons.mp hw with h | h
        · subst h
          simp [Nat.min_le_left]
        · exact ih _ _ h
    · simp at hw

/-- Claim C3 amended: every chunk produced by the token-level hard
split of an oversized section stays within max_tokens (each window
takes at most max_tokens tokens); the greedy accumulation branch does
not share this bound. -/
theorem hardSplit_token_bound (tokens : List Nat) (maxT overlapT : Nat)
    (ws : List (List Nat)) (h : hardSplit tokens maxT overlapT = .ok ws) :
    ∀ w ∈ ws, w.length ≤ maxT := by
  unfold hardSplit at h
  split at h
  · exact absurd h (by simp)
  · split at h
    · simp only [Except.ok.injEq] at h
      subst h
      intro w hw
      simp at hw
    · simp only [Except.ok.injEq] at h
      subst h
      intro w hw
      exact hardWindows_le tokens maxT _ _ _ w hw

theorem hardSplit_token_bound_witness :
    hardSplit [1, 2, 3] 2 0 = .ok [[1, 2], [3]] ∧ [1, 2].length ≤ 2 :=
  ⟨rfl, hardSplit_token_bound [1, 2, 3] 2 0 [[1, 2], [3]] rfl [1, 2] (by decide)⟩

/-- Claim C8 counterexample: content "aaa\n\nbbb" (8 tokens, longer
than overlap_tokens = 2) with max_tokens 4 produces chunks "aaa" and
"bbb" that share no textual overlap: no non-empty prefix of the second
chunk is a suffix of the first, because the closed chunk "aaa" contains
no break character, so the overlap carry is empty. -/
theorem chunkContent_overlap_cx :
    ((chunkContent charTok ⟨"https://e.com/a", "t", "aaa\n\nbbb", "", false, none, none, none⟩
        4 2).filter (fun p => p.isChunk)).map Page.content = ["aaa", "bbb"] ∧
    "b".data.isSuffixOf "aaa".data = false ∧
    "bb".data.isSuffixOf "aaa".data = false ∧
    "bbb".data.isSuffixOf "aaa".data = false := by decide

/-- Claim C8 amended: the overlap carry taken when a greedy chunk is
closed is always a suffix of the closed chunk content, and when it is
non-empty the successor chunk content starts with it; boundaries where
the carry is empty (no break character, closed chunk not exceeding
overlap_tokens, or the hard-split path) share no overlap. -/
theorem overlapCarry_suffix_of_prev (c sect : String) :
    (overlapCarry c).data <:+ c.data ∧
    (overlapCarry c ≠ "" →
      (overlapCarry c).data <+: (appendSection (overlapCarry c) sect).data) := by
  constructor
  · dsimp only [overlapCarry]
    split
    next b heq =>
      rw [show ∀ l : List Char, (String.mk l).data = l from fun _ => rfl]
      exact (List.drop_suffix _ _).trans (List.drop_suffix _ _)
    next heq => exact List.nil_suffix
  · intro hne
    unfold appendSection
    rw [if_neg hne, String.data_append, String.data_append, List.append_assoc]
    exact List.prefix_append _ _

theorem overlapCarry_suffix_witness :
    overlapCarry "ab cd" ≠ "" ∧
    ((overlapCarry "ab cd").data <:+ "ab cd".data ∧
      (overlapCarry "ab cd" ≠ "" →
        (overlapCarry "ab cd").data <+: (appendSection (overlapCarry "ab cd") "x").data)) :=
  ⟨by decide, overlapCarry_suffix_of_prev "ab cd" "x"⟩

/-! ## Database rows and environment (db_client.py) -/

/-- A row of the crawl_pages table as selected by the search queries,
with the joined site name and parent title columns. -/
structure Row where
  id : Nat
  siteId : Nat
  siteName : String
  url : String
  title : String
  content : String
  summary : String
  isChunk : Bool
  chunkIndex : Option Nat
  parentId : Option Nat
  parentTitle : Option String
  embedding : Option (List Rat)
deriving Repr, DecidableEq

/-- A search result dictionary: the selected row columns plus the keys
the search functions add (rank, similarity, vector and text scores,
snippet, context). A key that was never assigned is none. -/
structure SearchResult where
  row : Row
  rank : Option Rat
  similarity : Option Rat
  vectorScore : Option Rat
  textScore : Option Rat
  snippet : Option String
  context : Option String
deriving Repr, DecidableEq

/-- The external Postgres store as seen by SupabaseClient: the table
rows, the full-text match and rank primitives (to_tsvector/
plainto_tsquery/ts_rank_cd over title plus content), the pgvector
cosine similarity of a query embedding against a row, introspection
flags, and flags marking a database error raised inside each search
function's try block. -/
structure DbEnv where
  rows : List Row
  ftMatch : String → Row → Bool
  ftRank : String → Row → Rat
  cosSim : List Rat → Row → Rat
  pgvectorInstalled : Bool
  embeddingTypeIsVector : Bool
  vectorQueryError : Bool
  textQueryError : Bool
  hybridError : Bool

/-- The optional site_id filter appearing in every query. -/
def siteOk (siteId : Option Nat) (r : Row) : Bool :=
  match siteId with
  | none => true
  | some s => r.siteId = s

/-- SQL LIKE with wildcards on both sides: substring containment. -/
def containsSubstr (s pat : String) : Bool :=
  (List.range (s.data.length + 1)).any (fun i => pat.data.isPrefixOf (s.data.drop i))

/-- Python str.lower / SQL lower, character by character. -/
def lowerStr (s : String) : String :=
  String.mk (s.data.map Char.toLower)

/-- SQL ILIKE with wildcards on both sides: case-insensitive
substring containment. -/
def containsILike (s pat : String) : Bool :=
  containsSubstr (lowerStr s) (lowerStr pat)

/-! ## Domain extraction (the regex findall in search_by_text) -/

/-- The regex class [a-zA-Z0-9]. -/
def alnumAscii (c : Char) : Bool :=
  ('a' ≤ c ∧ c ≤ 'z') || ('A' ≤ c ∧ c ≤ 'Z') || ('0' ≤ c ∧ c ≤ '9')

/-- The regex class [-a-zA-Z0-9]. -/
def labelChar (c : Char) : Bool :=
  alnumAscii c || c = '-'

/-- Length of a domain label at the head of cs: one alnum character
followed by a greedy run of alnum or hyphen characters; none when the
head is not alnum. -/
def domToken (cs : List Char) : Option Nat :=
  match cs with
  | [] => none
  | c :: rest => if alnumAscii c then some (1 + (rest.takeWhile labelChar).length) else none

/-- Greedy scan of the domain regex ([label].)+[label] starting at a
label character: repeatedly consume label-dot pairs while the character
after the dot starts a new label, then finish with the current label as
the final one.  Returns the total match length and the last completed
group (label plus dot) exactly as re.findall returns the value of the
repeated capture group. -/
def domScan : Nat → List Char → Nat → List Char → Option (Nat × List Char)
  | 0, _, _, _ => none
  | fuel + 1, cs, iters, lastGrp =>
    match domToken cs with
    | none => none
    | some tl =>
      match cs.drop tl with
      | '.' :: c2 :: _ =>
        if alnumAscii c2 then
          (domScan fuel (cs.drop (tl + 1)) (iters + 1) (cs.take (tl + 1))).map
            (fun p => (tl + 1 + p.1, p.2))
        else if iters = 0 then none else some (tl, lastGrp)
      | _ => if iters = 0 then none else some (tl, lastGrp)

/-- Non-overlapping left-to-right scan collecting the group value of
every match of the domain regex, as re.findall does. -/
def extractDomainsAux : Nat → List Char → List String → List String
  | 0, _, acc => acc.reverse
  | fuel + 1, cs, acc =>
    match cs with
    | [] => acc.reverse
    | c :: rest =>
      if alnumAscii c then
        match domScan (cs.length + 1) cs 0 [] with
        | some (len, grp) => extractDomainsAux fuel (cs.drop len) (String.mk grp :: acc)
        | none => extractDomainsAux fuel rest acc
      else extractDomainsAux fuel rest acc

/-- The domain fragments found in a query string (already lowercased by
the caller): for a match like example.com the repeated capture group
holds the next-to-last label with its dot, so the collected value is
the fragment the SQL url LIKE filter uses. -/
def extractDomains (q : String) : List String :=
  extractDomainsAux (q.data.length + 1) q.data []

/-! ## search_by_text -/

/-- The chunk context string built for chunk rows:
From: parent title (Part chunk_index+1), with a fallback label when the
parent title is absent or empty (Python or-falsiness). -/
def contextFor (parentTitle : Option String) (ci : Nat) : String :=
  "From: " ++
    (match parentTitle with
     | some t => if t = "" then "Parent Document" else t
     | none => "Parent Document") ++
    " (Part " ++ toString (ci + 1) ++ ")"

/-- Turn one selected row into a result dictionary with the given rank,
adding the chunk context; a chunk row whose chunk_index column is NULL
makes Python evaluate None + 1 and raise (modelled as error). -/
def mkTextResult (rk : Rat) (r : Row) : Except Unit SearchResult :=
  if r.isChunk then
    match r.chunkIndex with
    | none => .error ()
    | some ci => .ok ⟨r, some rk, none, none, none, none, some (contextFor r.parentTitle ci)⟩
  else .ok ⟨r, some rk, none, none, none, none, none⟩

/-- Build result dictionaries for a list of rows, raising at the first
malformed row as the Python loop does. -/
def mkTextResults (rank : Row → Rat) : List Row → Except Unit (List SearchResult)
  | [] => .ok []
  | r :: rest =>
    match mkTextResult (rank r) r with
    | .error e => .error e
    | .ok res =>
      match mkTextResults rank rest with
      | .error e => .error e
      | .ok l => .ok (res :: l)

/-- Stable sort by a Boolean comparison (SQL ORDER BY, Python sort). -/
def sortResults (le : SearchResult → SearchResult → Bool) (l : List SearchResult) :
    List SearchResult :=
  List.insertionSort (fun a b => le a b) l

/-- ORDER BY rank DESC, is_chunk ASC. -/
def rankOrder (a b : SearchResult) : Bool :=
  if a.rank.getD 0 = b.rank.getD 0 then !a.row.isChunk || b.row.isChunk
  else b.rank.getD 0 < a.rank.getD 0

/-- ORDER BY is_chunk ASC. -/
def chunkAscOrder (a b : SearchResult) : Bool :=
  !a.row.isChunk || b.row.isChunk

/-- ORDER BY similarity DESC (vector search and hybrid merge sort). -/
def simDescOrder (a b : SearchResult) : Bool :=
  b.similarity.getD 0 ≤ a.similarity.getD 0

/-- The try-block body of SupabaseClient.search_by_text: the
domain-prioritized full-text query when the query contains a dotted
host-like token; otherwise the title ILIKE pass, then the ranked
full-text pass, then the relaxed ILIKE fallback when full text found
nothing. -/
def searchByTextCore (env : DbEnv) (query : String) (limit : Nat) (siteId : Option Nat) :
    Except Unit (List SearchResult) :=
  let domains := extractDomains (lowerStr query)
  if domains ≠ [] then
    let rows := env.rows.filter (fun r =>
      env.ftMatch query r && siteOk siteId r && domains.any (fun d => containsSubstr r.url d))
    match mkTextResults (env.ftRank query) rows with
    | .error e => .error e
    | .ok results => .ok (((sortResults rankOrder results).take (limit * 2)).take limit)
  else
    let trows := env.rows.filter (fun r => containsILike r.title query && siteOk siteId r)
    match mkTextResults (fun _ => 1) trows with
    | .error e => .error e
    | .ok tresults =>
      let tsorted := (sortResults chunkAscOrder tresults).take limit
      if tsorted ≠ [] then .ok (tsorted.take limit)
      else
        let frows := env.rows.filter (fun r => env.ftMatch query r && siteOk siteId r)
        match mkTextResults (env.ftRank query) frows with
        | .error e => .error e
        | .ok fresults =>
          let fsorted := (sortResults rankOrder fresults).take (limit * 2)
          if fsorted = [] then
            let irows := env.rows.filter (fun r =>
              (containsILike r.title query || containsILike r.content query) && siteOk siteId r)
            match mkTextResults (fun _ => 1 / 2) irows with
            | .error e => .error e
            | .ok iresults => .ok (((sortResults chunkAscOrder iresults).take limit).take limit)
          else .ok (fsorted.take limit)

/-- SupabaseClient.search_by_text: every exception inside the try block
(including a database error, modelled by the textQueryError flag) is
caught and turned into an empty result list. -/
def searchByText (env : DbEnv) (query : String) (limit : Nat) (siteId : Option Nat) :
    List SearchResult :=
  if env.textQueryError then []
  else
    match searchByTextCore env query limit siteId with
    | .ok l => l
    | .error _ => []

/-! ## search_by_embedding and hybrid_search -/

/-- Turn one row selected by the vector query into a result dictionary:
title defaults to Untitled on an empty title (Python or-falsiness) and
similarity is 1 - cosine distance as computed by the SQL expression. -/
def vecResult (env : DbEnv) (emb : List Rat) (r : Row) : SearchResult :=
  ⟨{ r with title := if r.title = "" then "Untitled" else r.title },
   none, some (env.cosSim emb r), none, none, none, none⟩

/-- SupabaseClient.search_by_embedding: empty when any try block
raises, when no row carries an embedding, when pgvector is missing or
the embedding column has the wrong type; otherwise the rows with
embeddings ordered by similarity descending, capped at twice the limit,
then filtered by the threshold. -/
def searchByEmbedding (env : DbEnv) (emb : List Rat) (threshold : Rat) (limit : Nat)
    (siteId : Option Nat) : List SearchResult :=
  if env.vectorQueryError then []
  else
    let withEmb := env.rows.filter (fun r => r.embedding.isSome && siteOk siteId r)
    if withEmb.length = 0 then []
    else if ¬env.pgvectorInstalled then []
    else if ¬env.embeddingTypeIsVector then []
    else
      let cands := (sortResults simDescOrder (withEmb.map (vecResult env emb))).take (limit * 2)
      cands.filter (fun c => threshold ≤ c.similarity.getD 0)

/-- The per-result mutation hybrid_search applies to text results
before merging: default similarity 0.5, vector score 0, text score
0.5. -/
def setTextScores (l : List SearchResult) : List SearchResult :=
  l.map (fun r => { r with similarity := some (1 / 2), vectorScore := some 0,
                           textScore := some (1 / 2) })

/-- Lookup in an insertion-ordered association list (Python dict):
the value at the first matching key. -/
def assocLookup {α : Type} : List (String × α) → String → Option α
  | [], _ => none
  | p :: rest, k => if p.1 = k then some p.2 else assocLookup rest k

/-- Overwrite the value stored at an existing key. -/
def assocUpdate {α : Type} (l : List (String × α)) (k : String) (v : α) :
    List (String × α) :=
  l.map (fun p => if p.1 = k then (k, v) else p)

/-- Python dict assignment: overwrite in place when the key exists,
append otherwise. -/
def assocUpsert {α : Type} (l : List (String × α)) (k : String) (v : α) :
    List (String × α) :=
  if (assocLookup l k).isSome then assocUpdate l k v else l ++ [(k, v)]

/-- First merge loop of hybrid_search: key each vector result by URL,
stamping vector_score with its similarity and text_score 0; results
with an empty URL are skipped. -/
def mergeVector (vr : List SearchResult) : List (String × SearchResult) :=
  vr.foldl
    (fun acc r =>
      if r.row.url = "" then acc
      else assocUpsert acc r.row.url
        { r with vectorScore := some (r.similarity.getD 0), textScore := some 0 })
    []

/-- Second merge loop of hybrid_search: for each text result, a URL
already present gets text_score 0.5 and similarity
max(vector_score, 0.5); a new URL is appended with the text defaults. -/
def mergeText (tr : List SearchResult) (acc0 : List (String × SearchResult)) :
    List (String × SearchResult) :=
  tr.foldl
    (fun acc r =>
      if r.row.url = "" then acc
      else
        match assocLookup acc r.row.url with
        | some cur =>
          assocUpdate acc r.row.url
            { cur with textScore := some (1 / 2),
                       similarity := some (max (cur.vectorScore.getD 0) (1 / 2)) }
        | none =>
          acc ++ [(r.row.url,
            { r with vectorScore := some 0, textScore := some (1 / 2),
                     similarity := some (1 / 2) })])
    acc0

/-- SupabaseClient.hybrid_search: vector search at 0.8 times the
threshold capped at twice the limit; when it already has at least
limit results they are returned directly and the text search never
runs; otherwise text search runs and the two result sets are merged by
URL, sorted by similarity descending and capped at limit.  Any
exception in the try block falls back to plain text search. -/
def hybridSearch (env : DbEnv) (query : String) (emb : List Rat) (threshold : Rat)
    (limit : Nat) (siteId : Option Nat) : List SearchResult :=
  if env.hybridError then searchByText env query limit siteId
  else
    let vr := searchByEmbedding env emb (threshold * (4 / 5)) (limit * 2) siteId
    if vr ≠ [] ∧ limit ≤ vr.length then vr.take limit
    else
      let tr := setTextScores (searchByText env query (limit * 2) siteId)
      if tr = [] ∧ vr = [] then []
      else if tr ≠ [] ∧ vr = [] then tr.take limit
      else
        let merged := mergeText tr (mergeVector vr)
        (sortResults simDescOrder (merged.map (fun p => p.2))).take limit

/-! ## WebCrawler.search -/

/-- Observable outcomes of generate_embedding on the query: an
exception, a falsy or empty vector, a malformed vector failing the
isinstance check, or a proper vector. -/
inductive EmbedOutcome where
  | raised : EmbedOutcome
  | emptyVec : EmbedOutcome
  | malformed : EmbedOutcome
  | vec : List Rat → EmbedOutcome

/-- The crawler's environment: the store plus the embedding
generator's behaviour on the query. -/
structure CrawlerEnv where
  db : DbEnv
  embedOutcome : EmbedOutcome

/-- Python slice content[:200] on characters. -/
def snippetStr (c : String) : String :=
  if 200 < c.data.length then String.mk (c.data.take 200) ++ "..." else c

/-- The result-enrichment loop body of WebCrawler.search: every result
gets a snippet of the first 200 characters; a chunk additionally gets
the parent context string; a chunk row whose chunk_index is NULL makes
Python raise on None + 1 (modelled as error). -/
def enrichOne (res : SearchResult) : Except Unit SearchResult :=
  let sn := snippetStr res.row.content
  if res.row.isChunk then
    match res.row.chunkIndex with
    | none => .error ()
    | some ci =>
      .ok { res with snippet := some sn, context := some (contextFor res.row.parentTitle ci) }
  else .ok { res with snippet := some sn }

/-- Enrich the whole result list, raising at the first bad row. -/
def enrichAll : List SearchResult → Except Unit (List SearchResult)
  | [] => .ok []
  | r :: rest =>
    match enrichOne r with
    | .error e => .error e
    | .ok res =>
      match enrichAll rest with
      | .error e => .error e
      | .ok l => .ok (res :: l)

/-- WebCrawler.search.  With use_embedding, an embedding failure (raise,
falsy vector or malformed vector) returns the raw search_by_text output
without enrichment; a proper vector runs hybrid_search, falls back to
search_by_text when it is empty, and enriches the results, any
exception in the whole block falling back to raw search_by_text.
Without use_embedding, search_by_text output is enriched with no
surrounding try block. -/
def searchModel (env : CrawlerEnv) (query : String) (useEmbedding : Bool) (threshold : Rat)
    (limit : Nat) (siteId : Option Nat) : Except Unit (List SearchResult) :=
  if useEmbedding then
    match env.embedOutcome with
    | .raised => .ok (searchByText env.db query limit siteId)
    | .emptyVec => .ok (searchByText env.db query limit siteId)
    | .malformed => .ok (searchByText env.db query limit siteId)
    | .vec v =>
      let results := hybridSearch env.db query v threshold limit siteId
      let results := if results = [] then searchByText env.db query limit siteId else results
      match enrichAll results with
      | .ok l => .ok l
      | .error _ => .ok (searchByText env.db query limit siteId)
  else
    enrichAll (searchByText env.db query limit siteId)

/-! ## add_pages (the write path of db_client.py) -/

/-- A stored crawl_pages row as written by add_pages. -/
structure StoredPage where
  id : Nat
  siteId : Nat
  url : String
  title : String
  content : String
  summary : String
  embeddingStr : Option String
  isChunk : Bool
  chunkIndex : Option Nat
  parentId : Option Nat
deriving Repr, DecidableEq

/-- The crawl_pages table plus the sequence backing the id column. -/
structure Db where
  pages : List StoredPage
  nextId : Nat
deriving Repr, DecidableEq

/-- The pgvector string serialization of a page embedding; a missing or
empty (falsy) embedding is stored as NULL. -/
def embedStr (p : Page) : Option String :=
  match p.embedding with
  | some e =>
    if e = [] then none
    else some ("[" ++ String.intercalate "," (e.map toString) ++ "]")
  | none => none

/-- Chunk URLs point at their parent URL through the fragment:
url.split('#')[0]. -/
def stripFragment (u : String) : String :=
  String.mk (u.data.takeWhile (fun c => c ≠ '#'))

/-- Upsert one parent page keyed by (url, is_chunk false), remembering
its id in the batch parent map. -/
def upsertParent (siteId : Nat) (st : Db × List Nat × List (String × Nat)) (p : Page) :
    Db × List Nat × List (String × Nat) :=
  let db := st.1
  let ids := st.2.1
  let m := st.2.2
  match db.pages.find? (fun r => r.url = p.url && r.isChunk = false) with
  | some r =>
    let db1 : Db :=
      { db with pages := db.pages.map (fun q =>
          if q.id = r.id then
            { q with title := p.title, content := p.content, summary := p.summary,
                     embeddingStr := embedStr p, isChunk := false, chunkIndex := none,
                     parentId := none }
          else q) }
    (db1, ids ++ [r.id], assocUpsert m p.url r.id)
  | none =>
    let np : StoredPage :=
      ⟨db.nextId, siteId, p.url, p.title, p.content, p.summary, embedStr p, false, none, none⟩
    (⟨db.pages ++ [np], db.nextId + 1⟩, ids ++ [db.nextId], assocUpsert m p.url db.nextId)

/-- Upsert one chunk keyed by (url, is_chunk true, chunk_index),
resolving parent_id only through the batch parent map; a falsy
parent_id (absent, or id 0) drops the chunk with a warning and
continues. -/
def upsertChunk (siteId : Nat) (m : List (String × Nat)) (st : Db × List Nat) (c : Page) :
    Db × List Nat :=
  let db := st.1
  let ids := st.2
  let pid := (assocLookup m (stripFragment c.url)).getD 0
  if pid = 0 then (db, ids)
  else
    let ci := c.chunkIndex.getD 0
    match db.pages.find? (fun r => r.url = c.url && r.isChunk = true && r.chunkIndex = some ci) with
    | some r =>
      let db1 : Db :=
        { db with pages := db.pages.map (fun q =>
            if q.id = r.id then
              { q with title := c.title, content := c.content, summary := c.summary,
                       embeddingStr := embedStr c, parentId := some pid }
            else q) }
      (db1, ids ++ [r.id])
    | none =>
      let np : StoredPage :=
        ⟨db.nextId, siteId, c.url, c.title, c.content, c.summary, embedStr c, true, some ci,
         some pid⟩
      (⟨db.pages ++ [np], db.nextId + 1⟩, ids ++ [db.nextId])

/-- SupabaseClient.add_pages: split the batch into parent pages and
chunks, upsert all parents first (committed before any chunk write),
then upsert the chunks resolving parent ids via the batch map. -/
def addPages (db : Db) (siteId : Nat) (pgs : List Page) : Db × List Nat :=
  if pgs = [] then (db, [])
  else
    let parents := pgs.filter (fun p => !p.isChunk)
    let chunks := pgs.filter (fun p => p.isChunk)
    let s1 := parents.foldl (upsertParent siteId) (db, [], [])
    chunks.foldl (upsertChunk siteId s1.2.2) (s1.1, s1.2.1)

/-! ## The embedding phase of enhance_pages (crawler.py) -/

/-- The zero-vector fallback written when generate_embedding raises. -/
def zeroEmbedding : List Rat := List.replicate 1536 0

/-- The per-page body of the embedding loop: pages without content are
skipped; otherwise the embedding is generated, a raise being replaced
by the 1536-dimensional zero vector. -/
def embedPage (gen : String → Except Unit (List Rat)) (p : Page) : Page :=
  if p.content = "" then p
  else
    match gen p.content with
    | .ok e => { p with embedding := some e }
    | .error _ => { p with embedding := some zeroEmbedding }

/-- The batch slices all_pages[i:i+10] walked by the embedding loop. -/
def toBatches {α : Type} : List α → List (List α)
  | [] => []
  | x :: xs => (x :: xs).take 10 :: toBatches ((x :: xs).drop 10)
termination_by l => l.length
decreasing_by
  simp only [List.length_drop, List.length_cons]
  omega

/-- The embedding phase of enhance_pages: process the pages in batches
of 10, each page independently. -/
def generateEmbeddings (gen : String → Except Unit (List Rat)) (pages : List Page) :
    List Page :=
  ((toBatches pages).map (fun batch => batch.map (embedPage gen))).flatten

/-! ## Helper lemmas on sorting, result construction and maps -/

theorem mem_of_mem_sortResults {le : SearchResult → SearchResult → Bool}
    {l : List SearchResult} {x : SearchResult} (h : x ∈ sortResults le l) : x ∈ l :=
  (List.perm_insertionSort _ l).mem_iff.mp h

theorem mkTextResult_ok {rk : Rat} {r : Row} {res : SearchResult}
    (h : mkTextResult rk r = .ok res) :
    res.row = r ∧ res.snippet = none ∧
    (r.isChunk = true → ∃ ci, r.chunkIndex = some ci ∧
        res.context = some (contextFor r.parentTitle ci)) := by
  unfold mkTextResult at h
  split at h
  · next hchunk =>
    cases hci : r.chunkIndex with
    | none => rw [hci] at h; exact absurd h (by simp)
    | some ci =>
      rw [hci] at h
      simp only [Except.ok.injEq] at h
      subst h
      exact ⟨rfl, rfl, fun _ => ⟨ci, rfl, rfl⟩⟩
  · next hchunk =>
    simp only [Except.ok.injEq] at h
    subst h
    refine ⟨rfl, rfl, fun hc => absurd hc (by simpa using hchunk)⟩

theorem mkTextResults_mem {rank : Row → Rat} :
    ∀ {rows : List Row} {out : List SearchResult}, mkTextResults rank rows = .ok out →
      ∀ res ∈ out, ∃ r ∈ rows, mkTextResult (rank r) r = .ok res := by
  intro rows
  induction rows with
  | nil =>
    intro out h res hres
    simp only [mkTextResults, Except.ok.injEq] at h
    subst h
    simp at hres
  | cons r rest ih =>
    intro out h res hres
    simp only [mkTextResults] at h
    cases h1 : mkTextResult (rank r) r with
    | error e => rw [h1] at h; exact absurd h (by simp)
    | ok res0 =>
      rw [h1] at h
      cases h2 : mkTextResults rank rest with
      | error e => rw [h2] at h; exact absurd h (by simp)
      | ok l =>
        rw [h2] at h
        simp only [Except.ok.injEq] at h
        subst h
        rcases List.mem_cons.mp hres with hres | hres
        · exact ⟨r, List.mem_cons_self r rest, hres ▸ h1⟩
        · obtain ⟨r2, hr2, hok⟩ := ih h2 res hres
          exact ⟨r2, List.mem_cons_of_mem r hr2, hok⟩

/-- Well-formedness that the context-building pass guarantees on every
result it returns: a chunk row carries a chunk index. -/
def WFResult (res : SearchResult) : Prop :=
  res.row.isChunk = true → res.row.chunkIndex.isSome = true

theorem mkTextResults_wf {rank : Row → Rat} {rows : List Row} {out : List SearchResult}
    (h : mkTextResults rank rows = .ok out) : ∀ res ∈ out, WFResult res := by
  intro res hres
  obtain ⟨r, _, hok⟩ := mkTextResults_mem h res hres
  obtain ⟨hrow, _, hctx⟩ := mkTextResult_ok hok
  intro hchunk
  obtain ⟨ci, hci, _⟩ := hctx (hrow ▸ hchunk)
  rw [hrow, hci]
  rfl

theorem searchByTextCore_wf (env : DbEnv) (query : String) (limit : Nat)
    (siteId : Option Nat) (out : List SearchResult)
    (h : searchByTextCore env query limit siteId = .ok out) :
    ∀ res ∈ out, WFResult res := by
  unfold searchByTextCore at h
  dsimp only at h
  split at h
  · split at h
    · exact absurd h (by simp)
    · next results hmk =>
      simp only [Except.ok.injEq] at h
      subst h
      intro res hres
      exact mkTextResults_wf hmk res
        (mem_of_mem_sortResults (List.take_subset _ _ (List.take_subset _ _ hres)))
  · split at h
    · exact absurd h (by simp)
    · next tresults hmk =>
      split at h
      · simp only [Except.ok.injEq] at h
        subst h
        intro res hres
        exact mkTextResults_wf hmk res
          (mem_of_mem_sortResults (List.take_subset _ _ (List.take_subset _ _ hres)))
      · split at h
        · exact absurd h (by simp)
        · next fresults hmk2 =>
          split at h
          · split at h
            · exact absurd h (by simp)
            · next iresults hmk3 =>
              simp only [Except.ok.injEq] at h
              subst h
              intro res hres
              exact mkTextResults_wf hmk3 res
                (mem_of_mem_sortResults (List.take_subset _ _ (List.take_subset _ _ hres)))
          · simp only [Except.ok.injEq] at h
            subst h
            intro res hres
            exact mkTextResults_wf hmk2 res
              (mem_of_mem_sortResults (List.take_subset _ _ (List.take_subset _ _ hres)))

theorem searchByText_wf (env : DbEnv) (query : String) (limit : Nat) (siteId : Option Nat) :
    ∀ res ∈ searchByText env query limit siteId, WFResult res := by
  intro res hres
  unfold searchByText at hres
  split at hres
  · simp at hres
  · split at hres
    · next l hcore => exact searchByTextCore_wf env query limit siteId l hcore res hres
    · simp at hres

theorem enrichOne_ok {r res : SearchResult} (h : enrichOne r = .ok res) :
    res.row = r.row ∧ res.snippet = some (snippetStr r.row.content) ∧
    (r.row.isChunk = true → ∃ ci, r.row.chunkIndex = some ci ∧
        res.context = some (contextFor r.row.parentTitle ci)) := by
  unfold enrichOne at h
  split at h
  · next hchunk =>
    cases hci : r.row.chunkIndex with
    | none => rw [hci] at h; exact absurd h (by simp)
    | some ci =>
      rw [hci] at h
      simp only [Except.ok.injEq] at h
      subst h
      exact ⟨rfl, rfl, fun _ => ⟨ci, rfl, rfl⟩⟩
  · next hchunk =>
    simp only [Except.ok.injEq] at h
    subst h
    exact ⟨rfl, rfl, fun hc => absurd hc (by simpa using hchunk)⟩

theorem enrichOne_isOk_of_wf {r : SearchResult} (h : WFResult r) :
    ∃ res, enrichOne r = .ok res := by
  unfold enrichOne
  split
  · next hchunk =>
    cases hci : r.row.chunkIndex with
    | none => exact absurd (h hchunk) (by simp [hci])
    | some ci => exact ⟨_, rfl⟩
  · exact ⟨_, rfl⟩

theorem enrichAll_ok_of_wf : ∀ {l : List SearchResult}, (∀ r ∈ l, WFResult r) →
    ∃ out, enrichAll l = .ok out := by
  intro l
  induction l with
  | nil => intro _; exact ⟨[], rfl⟩
  | cons r rest ih =>
    intro hwf
    obtain ⟨res, hres⟩ := enrichOne_isOk_of_wf (hwf r (List.mem_cons_self r rest))
    obtain ⟨out, hout⟩ := ih (fun x hx => hwf x (List.mem_cons_of_mem r hx))
    exact ⟨res :: out, by simp only [enrichAll]; rw [hres, hout]⟩

theorem enrichAll_mem : ∀ {l out : List SearchResult}, enrichAll l = .ok out →
    ∀ res ∈ out, ∃ r ∈ l, enrichOne r = .ok res := by
  intro l
  induction l with
  | nil =>
    intro out h res hres
    simp only [enrichAll, Except.ok.injEq] at h
    subst h
    simp at hres
  | cons r rest ih =>
    intro out h res hres
    simp only [enrichAll] at h
    cases h1 : enrichOne r with
    | error e => rw [h1] at h; exact absurd h (by simp)
    | ok res0 =>
      rw [h1] at h
      cases h2 : enrichAll rest with
      | error e => rw [h2] at h; exact absurd h (by simp)
      | ok l2 =>
        rw [h2] at h
        simp only [Except.ok.injEq] at h
        subst h
        rcases List.mem_cons.mp hres with hres | hres
        · exact ⟨r, List.mem_cons_self r rest, hres ▸ h1⟩
        · obtain ⟨r2, hr2, hok⟩ := ih h2 res hres
          exact ⟨r2, List.mem_cons_of_mem r hr2, hok⟩

/-- Claim C6: for every environment (any embedding outcome, any store
contents, any database-error flags), every query string and every
parameter combination, search() returns an ok result list and never
propagates an exception; empty results are the empty list. -/
theorem search_never_raises (env : CrawlerEnv) (query : String) (useEmbedding : Bool)
    (threshold : Rat) (limit : Nat) (siteId : Option Nat) :
    ∃ l, searchModel env query useEmbedding threshold limit siteId = .ok l := by
  unfold searchModel
  cases useEmbedding with
  | false =>
    obtain ⟨out, hout⟩ := enrichAll_ok_of_wf (searchByText_wf env.db query limit siteId)
    exact ⟨out, hout⟩
  | true =>
    cases env.embedOutcome with
    | raised => exact ⟨_, rfl⟩
    | emptyVec => exact ⟨_, rfl⟩
    | malformed => exact ⟨_, rfl⟩
    | vec v =>
      cases henr : enrichAll
          (if hybridSearch env.db query v threshold limit siteId = []
           then searchByText env.db query limit siteId
           else hybridSearch env.db query v threshold limit siteId) with
      | ok l => exact ⟨l, by dsimp only; rw [henr]; rfl⟩
      | error e =>
        exact ⟨searchByText env.db query limit siteId, by dsimp only; rw [henr]; rfl⟩

/-- Claim C7 amended: when the query contains a dotted host-like token,
search_by_text takes the domain branch, and every returned record both
matches the full-text query and has a URL containing one of the
extracted domain fragments; a record whose URL contains the domain but
which fails the full-text match is not returned, since the branch
conjoins the two filters. -/
theorem searchByText_domain_branch_sound (env : DbEnv) (query : String) (limit : Nat)
    (siteId : Option Nat) (hd : extractDomains (lowerStr query) ≠ [])
    (res : SearchResult) (hres : res ∈ searchByText env query limit siteId) :
    env.ftMatch query res.row = true ∧
    ∃ d ∈ extractDomains (lowerStr query), containsSubstr res.row.url d = true := by
  unfold searchByText at hres
  split at hres
  · simp at hres
  · split at hres
    · next l hcore =>
      unfold searchByTextCore at hcore
      dsimp only at hcore
      rw [if_pos hd] at hcore
      split at hcore
      · exact absurd hcore (by simp)
      · next results hmk =>
        simp only [Except.ok.injEq] at hcore
        subst hcore
        obtain ⟨r, hrmem, hok⟩ := mkTextResults_mem hmk res
          (mem_of_mem_sortResults (List.take_subset _ _ (List.take_subset _ _ hres)))
        obtain ⟨hrow, -, -⟩ := mkTextResult_ok hok
        rw [List.mem_filter] at hrmem
        obtain ⟨-, hcond⟩ := hrmem
        simp only [Bool.and_eq_true] at hcond
        obtain ⟨⟨hft, -⟩, hany⟩ := hcond
        rw [List.any_eq_true] at hany
        obtain ⟨d, hdmem, hdsub⟩ := hany
        exact ⟨hrow ▸ hft, d, hdmem, hrow ▸ hdsub⟩
    · simp at hres

/-- Concrete store row for the domain-query scenario: a document whose
URL contains example.com. -/
def rowC7 : Row :=
  ⟨1, 7, "site", "https://example.com/a", "Title", "Content", "", false, none, none, none,
   none⟩

/-- Environment in which the full-text primitive matches nothing, as
for a query whose lexemes are absent from every document (the spec's
punctuation-failure scenario). -/
def envC7 : DbEnv :=
  ⟨[rowC7], fun _ _ => false, fun _ _ => 0, fun _ _ => 0, true, true, false, false, false⟩

/-- Claim C7 counterexample: for the bare-domain query example.com, the
store holds a document whose URL contains the extracted fragment, yet
search_by_text returns nothing because the domain branch still requires
the full-text match, which fails; the claim says such a document is
returned even when full-text search fails. -/
theorem searchByText_domain_filter_cx :
    extractDomains (lowerStr "example.com") = ["example."] ∧
    containsSubstr rowC7.url "example." = true ∧
    searchByText envC7 "example.com" 10 none = [] := by decide

/-- Environment identical to envC7 except that the full-text primitive
matches the row. -/
def envC7w : DbEnv :=
  ⟨[rowC7], fun _ _ => true, fun _ _ => 0, fun _ _ => 0, true, true, false, false, false⟩

/-- The result record envC7w produces for rowC7. -/
def resC7w : SearchResult := ⟨rowC7, some 0, none, none, none, none, none⟩

theorem searchByText_domain_branch_sound_witness :
    extractDomains (lowerStr "example.com") ≠ [] ∧
    resC7w ∈ searchByText envC7w "example.com" 10 none ∧
    (envC7w.ftMatch "example.com" resC7w.row = true ∧
      ∃ d ∈ extractDomains (lowerStr "example.com"),
        containsSubstr resC7w.row.url d = true) :=
  ⟨by decide, by decide,
   searchByText_domain_branch_sound envC7w "example.com" 10 none (by decide) resC7w
     (by decide)⟩

/-- Claim C9 amended: results produced through the enrichment loop
carry a snippet of the first 200 characters of their content, and chunk
results carry the From-parent context string.  The first part covers
the text-only path; the second covers the successful-hybrid path with a
proper query vector, including its empty-result text fallback (the
scrutinee of the stated enrichment equation), and certifies that the
enriched list is exactly what search() returns there.  The direct
fallback returns of raw search_by_text output (embedding raise, falsy
or malformed vector, enrichment exception) carry no snippet. -/
theorem searchModel_enrichment_spec (env : CrawlerEnv) (query : String) (threshold : Rat)
    (limit : Nat) (siteId : Option Nat) :
    (∀ (out : List SearchResult) (res : SearchResult),
      searchModel env query false threshold limit siteId = .ok out → res ∈ out →
      res.snippet = some (snippetStr res.row.content) ∧
      (res.row.isChunk = true → ∃ ci, res.row.chunkIndex = some ci ∧
        res.context = some (contextFor res.row.parentTitle ci))) ∧
    (∀ (v : List Rat) (out : List SearchResult) (res : SearchResult),
      env.embedOutcome = EmbedOutcome.vec v →
      enrichAll (if hybridSearch env.db query v threshold limit siteId = []
                 then searchByText env.db query limit siteId
                 else hybridSearch env.db query v threshold limit siteId) = .ok out →
      searchModel env query true threshold limit siteId = .ok out ∧
      (res ∈ out →
        res.snippet = some (snippetStr res.row.content) ∧
        (res.row.isChunk = true → ∃ ci, res.row.chunkIndex = some ci ∧
          res.context = some (contextFor res.row.parentTitle ci)))) := by
  constructor
  · intro out res h hres
    replace h : enrichAll (searchByText env.db query limit siteId) = .ok out := h
    obtain ⟨r, hr, hok⟩ := enrichAll_mem h res hres
    obtain ⟨hrow, hsnip, hctx⟩ := enrichOne_ok hok
    rw [hrow]
    exact ⟨hsnip, hctx⟩
  · intro v out res hemb henr
    refine ⟨?_, ?_⟩
    · have hm : searchModel env query true threshold limit siteId =
          (match enrichAll (if hybridSearch env.db query v threshold limit siteId = []
                 then searchByText env.db query limit siteId
                 else hybridSearch env.db query v threshold limit siteId) with
           | .ok l => Except.ok l
           | .error _ => Except.ok (searchByText env.db query limit siteId)) := by
        unfold searchModel
        rw [hemb]
        rfl
      rw [hm, henr]
    · intro hres
      obtain ⟨r, hr, hok⟩ := enrichAll_mem henr res hres
      obtain ⟨hrow, hsnip, hctx⟩ := enrichOne_ok hok
      rw [hrow]
      exact ⟨hsnip, hctx⟩

/-- A chunk row stored with parent title Install Guide and
chunk_index 2, matching the spec's context example. -/
def rowC9w : Row :=
  ⟨2, 7, "site", "https://e.com/p#chunk-2", "guide q", "cc", "", true, some 2, some 9,
   some "Install Guide", none⟩

/-- Crawler environment for the witness runs: the stored chunk row
carries no embedding, so the vector half of hybrid search is empty and
hybrid search returns the score-stamped text results. -/
def envC9w : CrawlerEnv := ⟨⟨[rowC9w], fun _ _ => true, fun _ _ => 1, fun _ _ => 0,
  true, true, false, false, false⟩, .vec [1]⟩

/-- The enriched result the model returns for rowC9w on the text-only
path. -/
def resC9w : SearchResult :=
  ⟨rowC9w, some 1, none, none, none, some "cc", some "From: Install Guide (Part 3)"⟩

/-- The enriched result the model returns for rowC9w on the hybrid
path: the text scores stamped before merging plus snippet and
context. -/
def resC9v : SearchResult :=
  ⟨rowC9w, some 1, some (1 / 2), some 0, some (1 / 2), some "cc",
   some "From: Install Guide (Part 3)"⟩

theorem searchModel_enrichment_spec_witness :
    (searchModel envC9w "q" false 0 10 none = .ok [resC9w] ∧
      resC9w ∈ [resC9w] ∧
      (resC9w.snippet = some (snippetStr resC9w.row.content) ∧
        (resC9w.row.isChunk = true → ∃ ci, resC9w.row.chunkIndex = some ci ∧
          resC9w.context = some (contextFor resC9w.row.parentTitle ci)))) ∧
    (envC9w.embedOutcome = EmbedOutcome.vec [1] ∧
      enrichAll (if hybridSearch envC9w.db "q" [1] 0 10 none = []
                 then searchByText envC9w.db "q" 10 none
                 else hybridSearch envC9w.db "q" [1] 0 10 none) = .ok [resC9v] ∧
      searchModel envC9w "q" true 0 10 none = .ok [resC9v] ∧
      resC9v ∈ [resC9v] ∧
      (resC9v.snippet = some (snippetStr resC9v.row.content) ∧
        (resC9v.row.isChunk = true → ∃ ci, resC9v.row.chunkIndex = some ci ∧
          resC9v.context = some (contextFor resC9v.row.parentTitle ci)))) :=
  ⟨⟨rfl, List.mem_cons_self resC9w [],
    (searchModel_enrichment_spec envC9w "q" 0 10 none).1 [resC9w] resC9w rfl
      (List.mem_cons_self resC9w [])⟩,
   rfl, rfl,
   ((searchModel_enrichment_spec envC9w "q" 0 10 none).2 [1] [resC9v] resC9v rfl rfl).1,
   List.mem_cons_self resC9v [],
   ((searchModel_enrichment_spec envC9w "q" 0 10 none).2 [1] [resC9v] resC9v rfl rfl).2
     (List.mem_cons_self resC9v [])⟩

/-- A document row matched by the title pass for the query q. -/
def rowC9 : Row :=
  ⟨1, 7, "site", "https://e.com/d", "quick guide", "c9", "", false, none, none, none, none⟩

/-- Crawler environment in which the query embedding generation
raises. -/
def envC9 : CrawlerEnv := ⟨⟨[rowC9], fun _ _ => true, fun _ _ => 1, fun _ _ => 0,
  true, true, false, false, false⟩, .raised⟩

/-- Claim C9 counterexample: when embedding generation raises, search()
returns the raw search_by_text output; the returned result has
non-empty content but no snippet field, while the claim says every
result on every branch carries a snippet of the first 200 characters. -/
theorem search_fallback_missing_snippet_cx :
    searchModel envC9 "q" true (1 / 2) 10 none =
      .ok [⟨rowC9, some 1, none, none, none, none, none⟩] ∧
    (⟨rowC9, some 1, none, none, none, none, none⟩ : SearchResult).snippet = none ∧
    rowC9.content = "c9" :=
  ⟨rfl, rfl, rfl⟩

/-! ## Association list lemmas for the hybrid merge -/

theorem assocLookup_update_self {α : Type} (l : List (String × α)) (k : String) (v : α)
    (h : (assocLookup l k).isSome = true) :
    assocLookup (assocUpdate l k v) k = some v := by
  induction l with
  | nil => simp [assocLookup] at h
  | cons p rest ih =>
    by_cases hp : p.1 = k
    · simp [assocUpdate, assocLookup, hp]
    · have h' : (assocLookup rest k).isSome = true := by
        simpa [assocLookup, hp] using h
      simpa [assocUpdate, assocLookup, hp] using ih h'

theorem assocLookup_update_ne {α : Type} (l : List (String × α)) (k k2 : String) (v : α)
    (hne : k2 ≠ k) : assocLookup (assocUpdate l k v) k2 = assocLookup l k2 := by
  induction l with
  | nil => rfl
  | cons p rest ih =>
    by_cases hp2 : p.1 = k2
    · have hp : ¬p.1 = k := by rw [hp2]; exact hne
      simp only [assocUpdate, List.map_cons, if_neg hp, assocLookup, if_pos hp2]
    · by_cases hp : p.1 = k
      · have hk : ¬(k = k2) := fun h => hne h.symm
        simpa [assocUpdate, assocLookup, hp, hp2, hk] using ih
      · simpa [assocUpdate, assocLookup, hp, hp2] using ih

theorem assocLookup_append_left {α : Type} (l1 l2 : List (String × α)) (k : String)
    (h : (assocLookup l1 k).isSome = true) :
    assocLookup (l1 ++ l2) k = assocLookup l1 k := by
  induction l1 with
  | nil => simp [assocLookup] at h
  | cons p rest ih =>
    by_cases hp : p.1 = k
    · simp [assocLookup, hp]
    · have h' : (assocLookup rest k).isSome = true := by
        simpa [assocLookup, hp] using h
      simpa [assocLookup, hp] using ih h'

theorem assocLookup_append_new {α : Type} (l : List (String × α)) (k : String) (v : α)
    (h : assocLookup l k = none) : assocLookup (l ++ [(k, v)]) k = some v := by
  induction l with
  | nil => simp [assocLookup]
  | cons p rest ih =>
    by_cases hp : p.1 = k
    · simp [assocLookup, hp] at h
    · have h' : assocLookup rest k = none := by simpa [assocLookup, hp] using h
      simpa [assocLookup, hp] using ih h'

theorem assocLookup_upsert_self {α : Type} (l : List (String × α)) (k : String) (v : α) :
    assocLookup (assocUpsert l k v) k = some v := by
  unfold assocUpsert
  split
  · next h => exact assocLookup_update_self l k v h
  · next h =>
    refine assocLookup_append_new l k v ?_
    cases hl : assocLookup l k with
    | none => rfl
    | some x => rw [hl] at h; simp at h

theorem assocLookup_append_single_ne {α : Type} (l : List (String × α)) (k k2 : String)
    (v : α) (hne : k2 ≠ k) : assocLookup (l ++ [(k, v)]) k2 = assocLookup l k2 := by
  induction l with
  | nil =>
    have hk : ¬(k = k2) := fun h => hne h.symm
    simp [assocLookup, hk]
  | cons p rest ih =>
    by_cases hp : p.1 = k2
    · simp [assocLookup, hp]
    · simpa [assocLookup, hp] using ih

theorem assocLookup_upsert_ne {α : Type} (l : List (String × α)) (k k2 : String) (v : α)
    (hne : k2 ≠ k) : assocLookup (assocUpsert l k v) k2 = assocLookup l k2 := by
  unfold assocUpsert
  split
  · exact assocLookup_update_ne l k k2 v hne
  · exact assocLookup_append_single_ne l k k2 v hne

/-- Walking the text-result loop of the hybrid merge preserves an
entry's vector score and, once the entry's URL has been seen among the
text results (or its similarity already equals the merged value),
leaves its similarity at max(vector_score, 0.5). -/
theorem mergeText_preserves_max (tr : List SearchResult) :
    ∀ (acc : List (String × SearchResult)) (u : String) (c : SearchResult),
      u ≠ "" → assocLookup acc u = some c →
      ((∃ t ∈ tr, t.row.url = u) ∨
        c.similarity = some (max (c.vectorScore.getD 0) (1 / 2))) →
      ∃ e, assocLookup (mergeText tr acc) u = some e ∧
        e.vectorScore = c.vectorScore ∧
        e.similarity = some (max (c.vectorScore.getD 0) (1 / 2)) := by
  induction tr with
  | nil =>
    intro acc u c hu hc h
    rcases h with h | h
    · simp at h
    · exact ⟨c, hc, rfl, by rw [h]⟩
  | cons t ts ih =>
    intro acc u c hu hc h
    have hstep : mergeText (t :: ts) acc = mergeText ts
        (if t.row.url = "" then acc
         else
           match assocLookup acc t.row.url with
           | some cur =>
             assocUpdate acc t.row.url
               { cur with textScore := some (1 / 2),
                          similarity := some (max (cur.vectorScore.getD 0) (1 / 2)) }
           | none =>
             acc ++ [(t.row.url,
               { t with vectorScore := some 0, textScore := some (1 / 2),
                        similarity := some (1 / 2) })]) := by
      unfold mergeText
      rw [List.foldl_cons]
    rw [hstep]
    by_cases htu : t.row.url = u
    · rw [htu, if_neg hu, hc]
      have hcsome : (assocLookup acc u).isSome = true := by rw [hc]; rfl
      have := ih (assocUpdate acc u
          { c with textScore := some (1 / 2),
                   similarity := some (max (c.vectorScore.getD 0) (1 / 2)) }) u
        { c with textScore := some (1 / 2),
                 similarity := some (max (c.vectorScore.getD 0) (1 / 2)) }
        hu (assocLookup_update_self acc u _ hcsome) (Or.inr rfl)
      exact this
    · have hkeep : assocLookup
          (if t.row.url = "" then acc
           else
             match assocLookup acc t.row.url with
             | some cur =>
               assocUpdate acc t.row.url
                 { cur with textScore := some (1 / 2),
                            similarity := some (max (cur.vectorScore.getD 0) (1 / 2)) }
             | none =>
               acc ++ [(t.row.url,
                 { t with vectorScore := some 0, textScore := some (1 / 2),
                          similarity := some (1 / 2) })]) u = some c := by
        split
        · exact hc
        · cases hl : assocLookup acc t.row.url with
          | some cur =>
            dsimp only
            rw [assocLookup_update_ne acc t.row.url u _ (fun he => htu he.symm)]
            exact hc
          | none =>
            dsimp only
            rw [assocLookup_append_single_ne acc t.row.url u _ (fun he => htu he.symm)]
            exact hc
      refine ih _ u c hu hkeep ?_
      rcases h with ⟨t2, ht2, hturl⟩ | h
      · rcases List.mem_cons.mp ht2 with rfl | ht2
        · exact absurd hturl htu
        · exact Or.inl ⟨t2, ht2, hturl⟩
      · exact Or.inr h

/-- An entry of the vector-result map comes from a vector result with
that URL, stamped with its similarity as vector score. -/
theorem mergeVector_lookup_src :
    ∀ (vr : List SearchResult) (acc : List (String × SearchResult)) (u : String)
      (c : SearchResult),
      assocLookup (vr.foldl
        (fun acc r =>
          if r.row.url = "" then acc
          else assocUpsert acc r.row.url
            { r with vectorScore := some (r.similarity.getD 0), textScore := some 0 }) acc)
        u = some c →
      assocLookup acc u = some c ∨
        ∃ r ∈ vr, r.row.url = u ∧
          c = { r with vectorScore := some (r.similarity.getD 0), textScore := some 0 } := by
  intro vr
  induction vr with
  | nil => intro acc u c h; exact Or.inl h
  | cons r rs ih =>
    intro acc u c h
    rw [List.foldl_cons] at h
    rcases ih _ u c h with hbase | ⟨r2, hr2, hurl, hc⟩
    · by_cases hru : r.row.url = ""
      · rw [if_pos hru] at hbase
        exact Or.inl hbase
      · rw [if_neg hru] at hbase
        by_cases huu : r.row.url = u
        · rw [huu] at hbase
          rw [assocLookup_upsert_self] at hbase
          exact Or.inr ⟨r, List.mem_cons_self r rs, huu, (Option.some.injEq _ _ ▸ hbase).symm⟩
        · rw [assocLookup_upsert_ne _ _ _ _ (fun he => huu he.symm)] at hbase
          exact Or.inl hbase
    · exact Or.inr ⟨r2, List.mem_cons_of_mem r hr2, hurl, hc⟩

/-- Claim C2 amended: when the hybrid merge is reached (vector search
found fewer than limit candidates), a record found by both vector and
text search keeps its vector score and gets final similarity
max(vector_similarity, 0.5), not min(vector_similarity + 0.2, 1.0);
and the vector-map entry is exactly its vector result stamped with
vector_score = similarity. -/
theorem hybridMerge_both_found (vr tr : List SearchResult) (u : String) (c : SearchResult)
    (hu : u ≠ "") (hc : assocLookup (mergeVector vr) u = some c)
    (ht : ∃ t ∈ tr, t.row.url = u) :
    (∃ r ∈ vr, r.row.url = u ∧
      c = { r with vectorScore := some (r.similarity.getD 0), textScore := some 0 }) ∧
    ∃ e, assocLookup (mergeText tr (mergeVector vr)) u = some e ∧
      e.vectorScore = c.vectorScore ∧
      e.similarity = some (max (c.vectorScore.getD 0) (1 / 2)) := by
  constructor
  · have := mergeVector_lookup_src vr [] u c (by unfold mergeVector at hc; exact hc)
    rcases this with hnil | h
    · simp [assocLookup] at hnil
    · exact h
  · exact mergeText_preserves_max tr (mergeVector vr) u c hu hc (Or.inl ht)

/-- A stored document row carrying an embedding, matched by the title
pass for the query q. -/
def rowC2 : Row :=
  ⟨1, 7, "site", "https://a.com/x", "q guide", "body", "", false, none, none, none, some [1]⟩

/-- Store environment whose cosine similarity against the query vector
is always 3/5. -/
def envC2 : DbEnv :=
  ⟨[rowC2], fun _ _ => true, fun _ _ => 1, fun _ _ => 3 / 5, true, true, false, false, false⟩

section
set_option allowUnsafeReducibility true
attribute [local semireducible] Rat.mul Rat.add Rat.inv

/-- Claim C2 counterexample: with one vector candidate of similarity
3/5 (threshold 1/2) also found by text search, hybrid_search returns
final similarity max(3/5, 1/2) = 3/5, not min(3/5 + 1/5, 1) = 4/5; and
with limit 1 the vector results are returned directly, text_score never
being stamped, so the text-search branch is not always merged. -/
theorem hybridSearch_boost_cx :
    (hybridSearch envC2 "q" [1] (1 / 2) 2 none).map
        (fun r => (r.similarity, r.textScore)) = [(some (3 / 5), some (1 / 2))] ∧
    (hybridSearch envC2 "q" [1] (1 / 2) 1 none).map
        (fun r => (r.similarity, r.textScore)) = [(some (3 / 5), none)] ∧
    ¬((3 : Rat) / 5 = min ((3 : Rat) / 5 + 1 / 5) 1) := by
  refine ⟨by decide, by decide, by decide⟩

/-- A vector search result for rowC2 with similarity 3/5. -/
def vresC2 : SearchResult := ⟨rowC2, none, some (3 / 5), none, none, none, none⟩

/-- A text search result for the same row. -/
def tresC2 : SearchResult :=
  ⟨rowC2, some 1, some (1 / 2), some 0, some (1 / 2), none, none⟩

theorem hybridMerge_both_found_witness :
    ("https://a.com/x" ≠ "" ∧
      assocLookup (mergeVector [vresC2]) "https://a.com/x" =
        some { vresC2 with vectorScore := some ((vresC2.similarity).getD 0),
                           textScore := some 0 } ∧
      (∃ t ∈ [tresC2], t.row.url = "https://a.com/x")) ∧
    ((∃ r ∈ [vresC2], r.row.url = "https://a.com/x" ∧
        ({ vresC2 with vectorScore := some ((vresC2.similarity).getD 0),
                       textScore := some 0 } : SearchResult) =
          { r with vectorScore := some ((r.similarity).getD 0), textScore := some 0 }) ∧
      ∃ e, assocLookup (mergeText [tresC2] (mergeVector [vresC2])) "https://a.com/x" =
          some e ∧
        e.vectorScore = ({ vresC2 with
            vectorScore := some ((vresC2.similarity).getD 0),
            textScore := some 0 } : SearchResult).vectorScore ∧
        e.similarity = some (max (({ vresC2 with
            vectorScore := some ((vresC2.similarity).getD 0),
            textScore := some 0 } : SearchResult).vectorScore.getD 0) (1 / 2))) :=
  ⟨⟨by decide, by decide, tresC2, by decide, rfl⟩,
   hybridMerge_both_found [vresC2] [tresC2] "https://a.com/x" _ (by decide) (by decide)
     ⟨tresC2, by decide, rfl⟩⟩

end

/-! ## Claim C10: embedding failures in enhance_pages -/

theorem toBatches_flatten {α : Type} (l : List α) : (toBatches l).flatten = l := by
  match l with
  | [] => simp [toBatches]
  | x :: xs =>
    rw [toBatches, List.flatten_cons, toBatches_flatten ((x :: xs).drop 10),
      List.take_append_drop]
termination_by l.length
decreasing_by
  simp only [List.length_drop, List.length_cons]
  omega

theorem generateEmbeddings_eq_map (gen : String → Except Unit (List Rat))
    (pages : List Page) : generateEmbeddings gen pages = pages.map (embedPage gen) := by
  unfold generateEmbeddings
  rw [← List.map_flatten, toBatches_flatten]

/-- Claim C10: when generate_embedding raises for one page of the
batch, that page is kept (the output has one entry per input page, each
the embedding of the corresponding input), its embedding is set to the
all-zero vector of length 1536, and every other page is still processed
normally. -/
theorem enhance_embedding_failure_isolated (gen : String → Except Unit (List Rat))
    (pages : List Page) (i : Nat) (hi : i < pages.length)
    (hc : (pages.get ⟨i, hi⟩).content ≠ "")
    (he : gen (pages.get ⟨i, hi⟩).content = .error ()) :
    (generateEmbeddings gen pages).length = pages.length ∧
    (∀ j : Nat, (generateEmbeddings gen pages).get? j = (pages.get? j).map (embedPage gen)) ∧
    (generateEmbeddings gen pages).get? i =
      some { pages.get ⟨i, hi⟩ with embedding := some zeroEmbedding } ∧
    zeroEmbedding.length = 1536 := by
  have hmap := generateEmbeddings_eq_map gen pages
  refine ⟨by rw [hmap, List.length_map], ?_, ?_,
    by unfold zeroEmbedding; rw [List.length_replicate]⟩
  · intro j
    rw [hmap, List.get?_map]
  · rw [hmap, List.get?_map, List.get?_eq_get hi]
    have : embedPage gen (pages.get ⟨i, hi⟩) =
        { pages.get ⟨i, hi⟩ with embedding := some zeroEmbedding } := by
      unfold embedPage
      rw [if_neg hc, he]
    rw [Option.map_some', this]

theorem enhance_embedding_failure_witness :
    (("c" : String) ≠ "" ∧
      (fun _ : String => (.error () : Except Unit (List Rat))) "c" = .error ()) ∧
    (generateEmbeddings (fun _ => .error ())
        [⟨"u", "t", "c", "", false, none, none, none⟩]).get? 0 =
      some ⟨"u", "t", "c", "", false, none, none, some zeroEmbedding⟩ :=
  ⟨⟨by decide, rfl⟩,
   (enhance_embedding_failure_isolated (fun _ => .error ())
     [⟨"u", "t", "c", "", false, none, none, none⟩] 0 (by decide) (by decide) rfl).2.2.1⟩

/-! ## Claim C5: parent resolution in add_pages -/

theorem assocLookup_upsert_isSome {α : Type} (l : List (String × α)) (k k2 : String)
    (v : α) :
    (assocLookup (assocUpsert l k v) k2).isSome = true ↔
      (assocLookup l k2).isSome = true ∨ k2 = k := by
  by_cases h : k2 = k
  · subst h
    rw [assocLookup_upsert_self]
    simp
  · rw [assocLookup_upsert_ne l k k2 v h]
    simp [h]

theorem assocUpsert_val {α : Type} (l : List (String × α)) (k : String) (v : α)
    (kv : String × α) (h : kv ∈ assocUpsert l k v) : kv ∈ l ∨ kv.2 = v := by
  unfold assocUpsert at h
  split at h
  · unfold assocUpdate at h
    rcases List.mem_map.mp h with ⟨p, hp, hpe⟩
    by_cases hk : p.1 = k
    · rw [if_pos hk] at hpe
      right
      rw [← hpe]
    · rw [if_neg hk] at hpe
      exact Or.inl (hpe ▸ hp)
  · rcases List.mem_append.mp h with hin | hin
    · exact Or.inl hin
    · right
      rw [List.mem_singleton.mp hin]

theorem assocLookup_val_mem {α : Type} :
    ∀ (l : List (String × α)) (u : String) (v : α),
      assocLookup l u = some v → ∃ p ∈ l, p.2 = v := by
  intro l
  induction l with
  | nil => intro u v h; simp [assocLookup] at h
  | cons p rest ih =>
    intro u v h
    by_cases hp : p.1 = u
    · rw [assocLookup, if_pos hp] at h
      exact ⟨p, List.mem_cons_self p rest, (Option.some.injEq _ _ ▸ h)⟩
    · rw [assocLookup, if_neg hp] at h
      obtain ⟨q, hq, hqe⟩ := ih u v h
      exact ⟨q, List.mem_cons_of_mem p hq, hqe⟩

theorem upsertParent_step (siteId : Nat) (db : Db) (ids : List Nat)
    (m : List (String × Nat)) (p : Page)
    (h1 : 0 < db.nextId) (h2 : ∀ r ∈ db.pages, 0 < r.id) :
    ∃ (db1 : Db) (x : Nat),
      upsertParent siteId (db, ids, m) p = (db1, ids ++ [x], assocUpsert m p.url x) ∧
      0 < x ∧ 0 < db1.nextId ∧ ∀ r ∈ db1.pages, 0 < r.id := by
  unfold upsertParent
  dsimp only
  cases hf : db.pages.find? (fun r => r.url = p.url && r.isChunk = false) with
  | some r =>
    refine ⟨_, r.id, rfl, h2 r (List.mem_of_find?_eq_some hf), h1, ?_⟩
    intro q hq
    rcases List.mem_map.mp hq with ⟨q0, hq0, hqe⟩
    by_cases hqid : q0.id = r.id
    · rw [if_pos hqid] at hqe
      rw [← hqe]
      exact hqid ▸ h2 q0 hq0
    · rw [if_neg hqid] at hqe
      exact hqe ▸ h2 q0 hq0
  | none =>
    refine ⟨_, db.nextId, rfl, h1, Nat.succ_pos _, ?_⟩
    intro q hq
    rcases List.mem_append.mp hq with hq | hq
    · exact h2 q hq
    · rw [List.mem_singleton.mp hq]
      exact h1

theorem parentPhase_spec (siteId : Nat) :
    ∀ (ps : List Page) (db : Db) (ids : List Nat) (m : List (String × Nat)),
      0 < db.nextId → (∀ r ∈ db.pages, 0 < r.id) → (∀ kv ∈ m, 0 < kv.2) →
      0 < (ps.foldl (upsertParent siteId) (db, ids, m)).1.nextId ∧
      (∀ r ∈ (ps.foldl (upsertParent siteId) (db, ids, m)).1.pages, 0 < r.id) ∧
      (∀ kv ∈ (ps.foldl (upsertParent siteId) (db, ids, m)).2.2, 0 < kv.2) ∧
      ((ps.foldl (upsertParent siteId) (db, ids, m)).2.1).length = ids.length + ps.length ∧
      (∀ u, (assocLookup (ps.foldl (upsertParent siteId) (db, ids, m)).2.2 u).isSome = true ↔
        (assocLookup m u).isSome = true ∨ u ∈ ps.map Page.url) := by
  intro ps
  induction ps with
  | nil =>
    intro db ids m h1 h2 h3
    exact ⟨h1, h2, h3, by simp, fun u => by simp⟩
  | cons p rest ih =>
    intro db ids m h1 h2 h3
    rw [List.foldl_cons]
    obtain ⟨db1, x, heq, hx, h1x, h2x⟩ := upsertParent_step siteId db ids m p h1 h2
    rw [heq]
    have h3x : ∀ kv ∈ assocUpsert m p.url x, 0 < kv.2 := by
      intro kv hkv
      rcases assocUpsert_val m p.url x kv hkv with h | h
      · exact h3 kv h
      · rw [h]; exact hx
    obtain ⟨g1, g2, g3, g4, g5⟩ := ih db1 (ids ++ [x]) (assocUpsert m p.url x) h1x h2x h3x
    refine ⟨g1, g2, g3, ?_, ?_⟩
    · have hlen : (ids ++ [x]).length = ids.length + 1 := by simp
      rw [g4, hlen, List.length_cons]
      omega
    · intro u
      rw [g5 u, assocLookup_upsert_isSome]
      simp only [List.map_cons, List.mem_cons]
      tauto

theorem upsertChunk_skip (siteId : Nat) (m : List (String × Nat)) (db : Db)
    (ids : List Nat) (c : Page) (h : assocLookup m (stripFragment c.url) = none) :
    upsertChunk siteId m (db, ids) c = (db, ids) := by
  unfold upsertChunk
  dsimp only
  rw [h]
  rfl

theorem upsertChunk_store (siteId : Nat) (m : List (String × Nat))
    (hm : ∀ kv ∈ m, 0 < kv.2) (db : Db) (ids : List Nat) (c : Page) (k : Nat)
    (h : assocLookup m (stripFragment c.url) = some k) :
    ∃ (db1 : Db) (x : Nat), upsertChunk siteId m (db, ids) c = (db1, ids ++ [x]) := by
  have hk : 0 < k := by
    obtain ⟨p, hp, hpe⟩ := assocLookup_val_mem m (stripFragment c.url) k h
    exact hpe ▸ hm p hp
  unfold upsertChunk
  dsimp only
  rw [h]
  have hk0 : ¬((some k).getD 0 = 0) := by
    simp only [Option.getD_some]
    omega
  rw [if_neg hk0]
  cases db.pages.find? (fun r =>
      r.url = c.url && r.isChunk = true && r.chunkIndex = some (c.chunkIndex.getD 0)) with
  | some r => exact ⟨_, r.id, rfl⟩
  | none => exact ⟨_, db.nextId, rfl⟩

theorem chunkPhase_count (siteId : Nat) (m : List (String × Nat))
    (hm : ∀ kv ∈ m, 0 < kv.2) :
    ∀ (cs : List Page) (db : Db) (ids : List Nat),
      ((cs.foldl (upsertChunk siteId m) (db, ids)).2).length =
        ids.length +
          (cs.filter (fun c => (assocLookup m (stripFragment c.url)).isSome)).length := by
  intro cs
  induction cs with
  | nil => intro db ids; simp
  | cons c rest ih =>
    intro db ids
    rw [List.foldl_cons]
    cases hl : assocLookup m (stripFragment c.url) with
    | none =>
      rw [upsertChunk_skip siteId m db ids c hl, ih db ids,
        List.filter_cons_of_neg (by simp [hl])]
    | some k =>
      obtain ⟨db1, x, heq⟩ := upsertChunk_store siteId m hm db ids c k hl
      have hlen : (ids ++ [x]).length = ids.length + 1 := by simp
      rw [heq, ih db1 (ids ++ [x]), hlen, List.filter_cons_of_pos (by simp [hl]),
        List.length_cons]
      omega

/-- Claim C5 amended: add_pages upserts all parent pages of the batch
first (committed before any chunk write) and then the chunks; a chunk
resolves its parent only against the parent pages of the same batch
(keyed by the chunk URL stripped of its fragment), an unresolvable
chunk is dropped with a warning while the remaining chunks are still
processed: the returned id list has one entry per parent page plus one
per chunk whose stripped URL appears among the batch's parent URLs. -/
theorem addPages_parent_resolution (db : Db) (siteId : Nat) (pgs : List Page)
    (h1 : 0 < db.nextId) (h2 : ∀ r ∈ db.pages, 0 < r.id) :
    (addPages db siteId pgs).2.length =
      (pgs.filter (fun p => !p.isChunk)).length +
      ((pgs.filter (fun p => p.isChunk)).filter
        (fun c => decide (stripFragment c.url ∈
          (pgs.filter (fun p => !p.isChunk)).map Page.url))).length := by
  unfold addPages
  by_cases hpg : pgs = []
  · rw [if_pos hpg]
    subst hpg
    simp
  · rw [if_neg hpg]
    dsimp only
    obtain ⟨g1, g2, g3, g4, g5⟩ := parentPhase_spec siteId (pgs.filter (fun p => !p.isChunk))
      db [] [] h1 h2 (by simp)
    rw [chunkPhase_count siteId _ g3 (pgs.filter (fun p => p.isChunk)) _ _, g4]
    simp only [List.length_nil, Nat.zero_add]
    congr 1
    refine congrArg List.length ?_
    apply List.filter_congr
    intro c _
    have hiff := g5 (stripFragment c.url)
    simp only [assocLookup, Option.isSome_none, Bool.false_eq_true, false_or] at hiff
    rw [Bool.eq_iff_iff, decide_eq_true_eq]
    exact hiff

/-- A store already holding the parent document https://p.com/a from an
earlier batch. -/
def dbC5 : Db := ⟨[⟨1, 7, "https://p.com/a", "t", "c", "", none, false, none, none⟩], 2⟩

/-- A batch consisting only of a chunk of that stored parent. -/
def chunkC5 : Page := ⟨"https://p.com/a#chunk-0", "t", "c1", "", true, some 0, none, none⟩

/-- Claim C5 counterexample: the chunk's parent URL is already in the
store, yet add_pages drops the chunk (no id returned, store unchanged),
because parent resolution consults only the parent_url_to_id map built
from the same batch and never queries the store. -/
theorem addPages_prior_parent_dropped_cx :
    (addPages dbC5 7 [chunkC5]).2 = [] ∧
    (addPages dbC5 7 [chunkC5]).1 = dbC5 ∧
    (∃ r ∈ dbC5.pages, r.url = stripFragment chunkC5.url ∧ r.isChunk = false) := by
  decide

/-- A batch with one parent, one chunk of that parent, and one chunk of
an unrelated URL. -/
def pgsW5 : List Page :=
  [⟨"https://p.com/a", "t", "c", "", false, none, none, none⟩,
   ⟨"https://p.com/a#chunk-0", "t", "c1", "", true, some 0, none, none⟩,
   ⟨"https://q.com/b#chunk-0", "t", "c2", "", true, some 0, none, none⟩]

theorem addPages_parent_resolution_witness :
    (0 < (⟨[], 1⟩ : Db).nextId ∧ ∀ r ∈ (⟨[], 1⟩ : Db).pages, 0 < r.id) ∧
    (addPages ⟨[], 1⟩ 7 pgsW5).2.length =
      (pgsW5.filter (fun p => !p.isChunk)).length +
      ((pgsW5.filter (fun p => p.isChunk)).filter
        (fun c => decide (stripFragment c.url ∈
          (pgsW5.filter (fun p => !p.isChunk)).map Page.url))).length :=
  ⟨⟨by decide, by decide⟩,
   addPages_parent_resolution ⟨[], 1⟩ 7 pgsW5 (by decide) (by decide)⟩
